import Mathlib

/-!
Verification of `karapostK/protofair` (files `data/dataset.py` and
`fair/utils.py`) against its natural-language specification.

The training / evaluation interaction tables are embedded as lists of
`(user_idx, item_idx)` rows; the sparse matrices the code builds from them
become counting functions, and the constructor validation logic becomes
`Except`-valued initialisers.
-/

namespace ProtoFair

/-- A raw row of a `listening_history_*.csv` table: `(user_idx, item_idx)`. -/
abbrev Row := ℕ × ℕ

/-- Entry `(u, i)` of the matrix built by
`sp.coo_matrix((np.ones(len(lhs)), (lhs.user_idx, lhs.item_idx)))` after
duplicate summation (equally, of the CSR conversion `sampling_matrix`):
the number of raw rows equal to `(u, i)`. -/
def countPairs (lhs : List Row) (u i : ℕ) : ℕ :=
  lhs.countP (fun p => decide (p.1 = u ∧ p.2 = i))

/-- Column sum `iteration_matrix.sum(axis=0)[i]` of `TrainRecDataset._prepare_data`:
sum over the `nUsers` matrix rows of the duplicate-summed entries. -/
def itemPopularity (nUsers : ℕ) (lhs : List Row) (i : ℕ) : ℕ :=
  ∑ u ∈ Finset.range nUsers, countPairs lhs u i

/-- Total `item_popularity.sum()`: over the `nItems` columns. -/
def popTotal (nUsers nItems : ℕ) (lhs : List Row) : ℕ :=
  ∑ i ∈ Finset.range nItems, itemPopularity nUsers lhs i

/-- The vector `pop_distribution = item_popularity / item_popularity.sum()` of
`TrainRecDataset._prepare_data`, with exact rational arithmetic in place
of floating point. -/
def popDistribution (nUsers nItems : ℕ) (lhs : List Row) (i : ℕ) : ℚ :=
  (itemPopularity nUsers lhs i : ℚ) / (popTotal nUsers nItems lhs : ℚ)

/-- Modelled from the spec: column `i` sum of the 0/1 training incidence,
"each distinct (user,item) pair counted once" — the number of distinct
matrix rows `u < nUsers` whose pair `(u, i)` occurs in the raw table. -/
def distinctCount (nUsers : ℕ) (lhs : List Row) (i : ℕ) : ℕ :=
  ((Finset.range nUsers).filter (fun u => (u, i) ∈ lhs)).card

/-- Modelled from the spec: the popularity distribution the spec sentence
describes, the 0/1 incidence column sums normalised to sum to 1. -/
def specPopDistribution (nUsers nItems : ℕ) (lhs : List Row) (i : ℕ) : ℚ :=
  (distinctCount nUsers lhs i : ℚ) /
    ((∑ j ∈ Finset.range nItems, distinctCount nUsers lhs j : ℕ) : ℚ)

/-- A sum over a range of an indicator of `a = u ∧ c` collapses to a single
indicator of `a < U ∧ c`. -/
theorem sum_ite_eq_left (U a : ℕ) (c : Prop) [Decidable c] :
    (∑ u ∈ Finset.range U, if a = u ∧ c then 1 else 0) = if a < U ∧ c then (1 : ℕ) else 0 := by
  by_cases hc : c
  · simp [hc, Finset.sum_ite_eq, Finset.mem_range]
  · simp [hc]

/-- A sum over a range of an indicator of `c ∧ a = i` collapses to a single
indicator of `c ∧ a < I`. -/
theorem sum_ite_eq_right (I a : ℕ) (c : Prop) [Decidable c] :
    (∑ i ∈ Finset.range I, if c ∧ a = i then 1 else 0) = if c ∧ a < I then (1 : ℕ) else 0 := by
  by_cases hc : c
  · simp [hc, Finset.sum_ite_eq, Finset.mem_range]
  · simp [hc]

/-- Summing the per-user pair counts over all matrix rows counts the raw
rows with the given item and an in-range user. -/
theorem itemPopularity_eq_countP (U i : ℕ) (lhs : List Row) :
    itemPopularity U lhs i = lhs.countP (fun p => decide (p.1 < U ∧ p.2 = i)) := by
  induction lhs with
  | nil => simp [itemPopularity, countPairs]
  | cons p t ih =>
    unfold itemPopularity countPairs at *
    simp only [List.countP_cons, decide_eq_true_eq] at *
    rw [Finset.sum_add_distrib, ih]
    congr 1
    exact sum_ite_eq_left U p.1 (p.2 = i)

/-- Summing the column sums over all columns counts the in-range raw rows. -/
theorem popTotal_eq_countP (U I : ℕ) (lhs : List Row) :
    popTotal U I lhs = lhs.countP (fun p => decide (p.1 < U ∧ p.2 < I)) := by
  unfold popTotal
  simp only [itemPopularity_eq_countP]
  induction lhs with
  | nil => simp
  | cons p t ih =>
    simp only [List.countP_cons, decide_eq_true_eq] at *
    rw [Finset.sum_add_distrib, ih]
    congr 1
    exact sum_ite_eq_right I p.2 (p.1 < U)

/-- On a table whose rows are all in range, the popularity column sum is
the raw multiplicity of the item and the total is the raw row count. -/
theorem popTotal_eq_length (U I : ℕ) (lhs : List Row)
    (hvalid : ∀ p ∈ lhs, p.1 < U ∧ p.2 < I) :
    popTotal U I lhs = lhs.length := by
  rw [popTotal_eq_countP]
  rw [List.countP_eq_length]
  intro p hp
  exact decide_eq_true (hvalid p hp)

/-- On a table whose users are all in range, the popularity column sum is
the raw multiplicity of the item, duplicates included. -/
theorem itemPopularity_eq_item_countP (U i : ℕ) (lhs : List Row)
    (hvalid : ∀ p ∈ lhs, p.1 < U) :
    itemPopularity U lhs i = lhs.countP (fun p => decide (p.2 = i)) := by
  rw [itemPopularity_eq_countP]
  apply List.countP_congr
  intro p hp
  simp [hvalid p hp]

/-- On a duplicate-free table, the 0/1 incidence column sum agrees with the
duplicate-summed column sum. -/
theorem distinctCount_eq_of_nodup (U i : ℕ) (lhs : List Row) (hnd : lhs.Nodup) :
    distinctCount U lhs i = itemPopularity U lhs i := by
  rw [itemPopularity_eq_countP, List.countP_eq_length_filter]
  have hnd2 : (lhs.filter (fun p => decide (p.1 < U ∧ p.2 = i))).Nodup := hnd.filter _
  rw [← List.toFinset_card_of_nodup hnd2]
  unfold distinctCount
  apply Finset.card_bij (fun u _ => (u, i))
  · intro u hu
    simp only [Finset.mem_filter, Finset.mem_range] at hu
    simp only [List.mem_toFinset, List.mem_filter, decide_eq_true_eq]
    exact ⟨hu.2, hu.1, trivial⟩
  · intro u _ v _ h
    exact (Prod.mk.injEq _ _ _ _ ▸ h).1
  · intro p hp
    simp only [List.mem_toFinset, List.mem_filter, decide_eq_true_eq] at hp
    refine ⟨p.1, ?_, ?_⟩
    · simp only [Finset.mem_filter, Finset.mem_range]
      exact ⟨hp.2.1, by rw [← hp.2.2]; exact hp.1⟩
    · rw [← hp.2.2]

/-- Concrete training table with literal duplicate rows: item 0 has two
distinct users with one row each, item 1 has one user repeated three times. -/
def lhsDup : List Row := [(0, 0), (1, 0), (0, 1), (0, 1), (0, 1)]

/-- Concrete duplicate-free training table over two users and two items. -/
def lhsW : List Row := [(0, 0), (1, 1)]

/-- C1: counterexample. On `lhsDup`, strictly more distinct users interacted
with item 0 than with item 1, yet `pop_distribution[0] > pop_distribution[1]`
fails (the code counts duplicate rows), and the computed distribution differs
from the normalised 0/1-incidence column sums the claim describes. -/
theorem C1_counterexample :
    distinctCount 2 lhsDup 1 < distinctCount 2 lhsDup 0 ∧
    ¬ popDistribution 2 2 lhsDup 1 < popDistribution 2 2 lhsDup 0 ∧
    popDistribution 2 2 lhsDup 0 ≠ specPopDistribution 2 2 lhsDup 0 := by
  have h0 : itemPopularity 2 lhsDup 0 = 2 := by decide
  have h1 : itemPopularity 2 lhsDup 1 = 3 := by decide
  have ht : popTotal 2 2 lhsDup = 5 := by decide
  have hd0 : distinctCount 2 lhsDup 0 = 2 := by decide
  have hds : (∑ j ∈ Finset.range 2, distinctCount 2 lhsDup j) = 3 := by decide
  refine ⟨by decide, ?_, ?_⟩
  · unfold popDistribution
    rw [h0, h1, ht]
    norm_num
  · unfold popDistribution specPopDistribution
    rw [h0, ht, hd0, hds]
    norm_num

/-- C1 (amended): `pop_distribution` is the vector of raw column sums of the
duplicate-summed training matrix normalised to sum to 1: on any non-empty
in-range table the distribution sums to exactly 1, vanishes exactly on the
items with no training row, is strictly monotone in the raw (duplicates
included) interaction counts, and coincides with the normalised 0/1-incidence
column sums whenever the raw table has no duplicate rows. -/
theorem C1_pop_distribution (U I : ℕ) (lhs : List Row)
    (hvalid : ∀ p ∈ lhs, p.1 < U ∧ p.2 < I) (hne : lhs ≠ []) :
    (∑ i ∈ Finset.range I, popDistribution U I lhs i) = 1 ∧
    (∀ i, popDistribution U I lhs i = 0 ↔ ∀ p ∈ lhs, p.2 ≠ i) ∧
    (∀ i j, lhs.countP (fun p => decide (p.2 = j)) < lhs.countP (fun p => decide (p.2 = i)) →
        popDistribution U I lhs j < popDistribution U I lhs i) ∧
    (lhs.Nodup → ∀ i, popDistribution U I lhs i = specPopDistribution U I lhs i) := by
  have hlen : popTotal U I lhs = lhs.length := popTotal_eq_length U I lhs hvalid
  have htpos : (0 : ℚ) < (popTotal U I lhs : ℚ) := by
    rw [hlen]
    exact_mod_cast List.length_pos.mpr hne
  have htne : (popTotal U I lhs : ℚ) ≠ 0 := ne_of_gt htpos
  have hitem : ∀ i, itemPopularity U lhs i = lhs.countP (fun p => decide (p.2 = i)) :=
    fun i => itemPopularity_eq_item_countP U i lhs (fun p hp => (hvalid p hp).1)
  refine ⟨?_, ?_, ?_, ?_⟩
  · unfold popDistribution
    rw [← Finset.sum_div, ← Nat.cast_sum]
    exact div_self htne
  · intro i
    unfold popDistribution
    rw [div_eq_zero_iff]
    constructor
    · rintro (h | h)
      · have h0 : itemPopularity U lhs i = 0 := by exact_mod_cast h
        rw [hitem i, List.countP_eq_zero] at h0
        intro p hp hpi
        exact absurd (decide_eq_true hpi) (h0 p hp)
      · exact absurd h htne
    · intro h
      left
      have h0 : itemPopularity U lhs i = 0 := by
        rw [hitem i, List.countP_eq_zero]
        intro p hp
        simpa using h p hp
      exact_mod_cast h0
  · intro i j hij
    unfold popDistribution
    rw [div_lt_div_iff_of_pos_right htpos]
    rw [← hitem i, ← hitem j] at hij
    exact_mod_cast hij
  · intro hnd i
    have hd : ∀ k, distinctCount U lhs k = itemPopularity U lhs k :=
      fun k => distinctCount_eq_of_nodup U k lhs hnd
    have hsum : (∑ j ∈ Finset.range I, distinctCount U lhs j) = popTotal U I lhs :=
      Finset.sum_congr rfl (fun k _ => hd k)
    unfold popDistribution specPopDistribution
    rw [hd i, hsum]

/-- C1 witness: the amended theorem instantiated on a concrete duplicate-free
table, where the distribution sums to exactly 1. -/
theorem C1_pop_distribution_witness :
    (∑ i ∈ Finset.range 2, popDistribution 2 2 lhsW i) = 1 :=
  (C1_pop_distribution 2 2 lhsW (by decide) (by decide)).1

/-- Split values accepted by the `assert` opening `RecDataset.__init__`. -/
def validSplit (s : String) : Prop := s = "train" ∨ s = "val" ∨ s = "test"

instance (s : String) : Decidable (validSplit s) := by
  unfold validSplit
  infer_instance

/-- The test `column.endswith("group_idx")` selecting the grouping columns
of `user_idxs.csv` in `RecDataset._load_data`. -/
def isGroupingColumn (c : String) : Bool :=
  "group_idx".data.isSuffixOf c.data

/-- Grouping columns of the user table (`RecDataset._load_data`). -/
def groupingColumns (cols : List String) : List String :=
  cols.filter isGroupingColumn

/-- Outcome of `RecDataset.__init__(data_path, split_set)` given the column
list of `user_idxs.csv`, with all csv files present: the `assert` on
`split_set` runs first; the group mappings are built only when more than one
grouping column exists; the construction log line then evaluates
`len(self.n_user_groups)`, which raises `TypeError` whenever `n_user_groups`
was left `None`. Returns the number of group mappings on success. -/
def recDatasetInit (cols : List String) (split : String) : Except String ℕ :=
  if validSplit split then
    if 1 < (groupingColumns cols).length then .ok (groupingColumns cols).length
    else .error "TypeError: object of type NoneType has no len()"
  else .error "InvalidArgument"

/-- Outcome of `FullEvalDataset.__init__`: the `split_set` validation is
exactly the one delegated to `RecDataset.__init__`; `_prepare_data` adds no
further validation of the split value. -/
def fullEvalDatasetInit (cols : List String) (split : String) : Except String ℕ :=
  recDatasetInit cols split

/-- A concrete `user_idxs.csv` column list with two grouping columns. -/
def userCols : List String := ["user_idx", "gender_group_idx", "age_group_idx"]

/-- C2: counterexample. Constructing a `FullEvalDataset` with
`split = "train"` does not fail: the only split validation is the
`RecDataset` assert, whose accepted set is {train, val, test}. -/
theorem C2_counterexample :
    fullEvalDatasetInit userCols "train" = .ok 2 := rfl

/-- C2 (amended): on a user table with more than one grouping column (so
construction does not trip over the unconditional group-count logging),
`FullEvalDataset` construction fails with `InvalidArgument` exactly for
split values outside {train, val, test}; in particular `split = "train"`
is accepted at construction time. -/
theorem C2_split_validation (cols : List String) (split : String)
    (hg : 1 < (groupingColumns cols).length) :
    (fullEvalDatasetInit cols split = .error "InvalidArgument" ↔ ¬ validSplit split) ∧
    fullEvalDatasetInit cols "train" = .ok (groupingColumns cols).length := by
  have htrain : validSplit "train" := Or.inl rfl
  unfold fullEvalDatasetInit recDatasetInit
  refine ⟨?_, ?_⟩
  · by_cases h : validSplit split
    · rw [if_pos h, if_pos hg]
      simp [h]
    · rw [if_neg h]
      simp [h]
  · rw [if_pos htrain, if_pos hg]

/-- C2 witness: the amended validation law instantiated on a concrete
column list and the rejected split value "foo". -/
theorem C2_split_validation_witness :
    (fullEvalDatasetInit userCols "foo" = .error "InvalidArgument" ↔ ¬ validSplit "foo") ∧
    fullEvalDatasetInit userCols "train" = .ok (groupingColumns userCols).length :=
  C2_split_validation userCols "foo" (by decide)

/-- C9: evaluation of the construction at the failing inputs. On a user
table with zero or one grouping column, `RecDataset` construction raises
`TypeError` — `logging.info` eagerly evaluates `len(self.n_user_groups)`
while `n_user_groups` is still `None` — instead of succeeding with the
group metadata absent as the code's own `# optional` comments state. -/
theorem C9_group_metadata_bug :
    recDatasetInit ["user_idx"] "train" =
      .error "TypeError: object of type NoneType has no len()" ∧
    recDatasetInit ["user_idx", "gender_group_idx"] "train" =
      .error "TypeError: object of type NoneType has no len()" :=
  ⟨rfl, rfl⟩

/-- Positivity of a pair count is membership of the pair in the raw table. -/
theorem countPairs_pos (lhs : List Row) (u i : ℕ) :
    0 < countPairs lhs u i ↔ (u, i) ∈ lhs := by
  unfold countPairs
  rw [List.countP_pos_iff]
  constructor
  · rintro ⟨⟨a, b⟩, hp, hq⟩
    simp only [decide_eq_true_eq] at hq
    obtain ⟨h1, h2⟩ := hq
    subst h1
    subst h2
    exact hp
  · intro h
    exact ⟨(u, i), h, by simp⟩

/-- Entry `(u, i)` of a boolean CSR matrix built from ones over the rows of
a table, duplicate entries combining by boolean addition: true iff the pair
occurs in the table. -/
def boolIncidence (lhs : List Row) (u i : ℕ) : Bool :=
  decide (0 < countPairs lhs u i)

/-- The matrix `exclude_data` of `FullEvalDataset._prepare_data`: the boolean training
incidence, plus (boolean matrix addition) the validation incidence when the
split is "test". -/
def excludeData (split : String) (train val : List Row) (u i : ℕ) : Bool :=
  if split = "test" then boolIncidence train u i || boolIncidence val u i
  else boolIncidence train u i

/-- The boolean incidence holds exactly at pairs present in the table. -/
theorem boolIncidence_iff (lhs : List Row) (u i : ℕ) :
    boolIncidence lhs u i = true ↔ (u, i) ∈ lhs := by
  unfold boolIncidence
  rw [decide_eq_true_eq]
  exact countPairs_pos lhs u i

/-- C3: the exclusion matrix equals the training incidence for the
validation split and the train ∪ val incidence for the test split; hence
every validation exclusion is a test exclusion and every training pair is
excluded in both splits. -/
theorem C3_exclude_data (train val : List Row) (u i : ℕ) :
    (excludeData "val" train val u i = true ↔ (u, i) ∈ train) ∧
    (excludeData "test" train val u i = true ↔ ((u, i) ∈ train ∨ (u, i) ∈ val)) ∧
    (excludeData "val" train val u i = true → excludeData "test" train val u i = true) ∧
    ((u, i) ∈ train →
      excludeData "val" train val u i = true ∧ excludeData "test" train val u i = true) := by
  have hval : excludeData "val" train val u i = boolIncidence train u i := by
    unfold excludeData
    rw [if_neg (by decide)]
  have htest : excludeData "test" train val u i
      = (boolIncidence train u i || boolIncidence val u i) := by
    unfold excludeData
    rw [if_pos rfl]
  refine ⟨?_, ?_, ?_, ?_⟩
  · rw [hval]
    exact boolIncidence_iff train u i
  · rw [htest]
    simp [Bool.or_eq_true, boolIncidence_iff]
  · intro h
    rw [hval] at h
    rw [htest, h]
    simp
  · intro h
    have hb : boolIncidence train u i = true := (boolIncidence_iff train u i).mpr h
    exact ⟨by rw [hval]; exact hb, by rw [htest, hb]; simp⟩

/-- C3 witness: the exclusion laws instantiated at a concrete pair. -/
theorem C3_exclude_data_witness :
    excludeData "val" lhsW [] 0 0 = true ↔ ((0, 0) : Row) ∈ lhsW :=
  (C3_exclude_data lhsW [] 0 0).1

/-- COO entries built by `TrainRecDataset._prepare_data`: one
`(row, col, 1)` triple per raw table row, duplicates kept as stored
entries. -/
def cooEntries (lhs : List Row) : List (ℕ × ℕ × ℕ) :=
  lhs.map (fun p => (p.1, p.2, 1))

/-- The length `TrainRecDataset.__len__()`: `iteration_matrix.nnz`, the number of
stored COO entries. -/
def trainLength (lhs : List Row) : ℕ := (cooEntries lhs).length

/-- Stored-entry count of the CSR conversion `sampling_matrix`, in which
duplicates have been summed: the number of in-range pairs with a positive
count. -/
def csrNnz (U I : ℕ) (lhs : List Row) : ℕ :=
  ((Finset.range U ×ˢ Finset.range I).filter (fun q => 0 < countPairs lhs q.1 q.2)).card

/-- C4: the positional COO view stores one entry per raw row, so the
dataset length equals the raw row count with duplicates included; the CSR
view is nonzero at `(u, i)` exactly when some raw row equals `(u, i)` — the
same 0/1 incidence; and the CSR stored-entry count never exceeds the
positional length. -/
theorem C4_coo_csr (U I : ℕ) (lhs : List Row) :
    trainLength lhs = lhs.length ∧
    (∀ u i, 0 < countPairs lhs u i ↔ (u, i) ∈ lhs) ∧
    csrNnz U I lhs ≤ trainLength lhs := by
  refine ⟨List.length_map _ _, countPairs_pos lhs, ?_⟩
  have hsub : ((Finset.range U ×ˢ Finset.range I).filter
      (fun q => 0 < countPairs lhs q.1 q.2)) ⊆ lhs.toFinset := by
    intro q hq
    rw [List.mem_toFinset]
    have hmem : (q.1, q.2) ∈ lhs := (countPairs_pos lhs q.1 q.2).mp (Finset.mem_filter.mp hq).2
    simpa using hmem
  calc csrNnz U I lhs ≤ lhs.toFinset.card := Finset.card_le_card hsub
    _ ≤ lhs.length := lhs.toFinset_card_le
    _ = trainLength lhs := (List.length_map _ _).symm

/-- Sampling without replacement in the style of a partial Fisher–Yates
shuffle, the generator abstracted as `pick`: at each step position
`pick step % pool size` of the remaining pool is drawn and the chosen
element is removed from the pool. -/
def sampleNoReplace : List ℕ → ℕ → (ℕ → ℕ) → List ℕ
  | _, 0, _ => []
  | xs, k + 1, pick =>
      xs.getD (pick k % xs.length) 0 ::
        sampleNoReplace (xs.eraseIdx (pick k % xs.length)) k pick

/-- Sampling with replacement: `k` independent draws from the pool. -/
def sampleReplace (xs : List ℕ) (k : ℕ) (pick : ℕ → ℕ) : List ℕ :=
  (List.range k).map (fun t => xs.getD (pick t % xs.length) 0)

/-- The call `np.random.choice(xs, size=k, replace=r)` abstracted over the
underlying generator: it raises on an empty pool whenever samples are
requested, and without replacement also when more samples are requested
than the pool holds. -/
def npChoice (xs : List ℕ) (k : ℕ) (r : Bool) (pick : ℕ → ℕ) : Option (List ℕ) :=
  if xs.length = 0 ∧ 0 < k then none
  else if r then some (sampleReplace xs k pick)
  else if xs.length < k then none
  else some (sampleNoReplace xs k pick)

/-- The user row slice `sampling_matrix[user_idx].indices`: the distinct
item indices among the user's raw training rows. -/
def userHistory (lhs : List Row) (u : ℕ) : List ℕ :=
  ((lhs.filter (fun p => decide (p.1 = u))).map (fun p => p.2)).dedup

/-- The method `TrainUserRecDataset.__getitem__(user_idx)`: slice the user's CSR row,
then `np.random.choice(user_data, size=n_pos, replace=len(user_data) < n_pos)`. -/
def trainUserGetitem (lhs : List Row) (nPos : ℕ) (pick : ℕ → ℕ) (u : ℕ) :
    Option (ℕ × List ℕ) :=
  (npChoice (userHistory lhs u) nPos
      (decide ((userHistory lhs u).length < nPos)) pick).map (fun l => (u, l))

/-- A with-replacement sample has the requested size. -/
theorem length_sampleReplace (xs : List ℕ) (k : ℕ) (pick : ℕ → ℕ) :
    (sampleReplace xs k pick).length = k := by
  simp [sampleReplace]

/-- Every element of a with-replacement sample from a non-empty pool
belongs to the pool. -/
theorem mem_sampleReplace (xs : List ℕ) (k : ℕ) (pick : ℕ → ℕ) (hne : xs ≠ []) :
    ∀ x ∈ sampleReplace xs k pick, x ∈ xs := by
  intro x hx
  simp only [sampleReplace, List.mem_map, List.mem_range] at hx
  obtain ⟨t, _, ht⟩ := hx
  have hj : pick t % xs.length < xs.length := Nat.mod_lt _ (List.length_pos.mpr hne)
  rw [List.getD_eq_getElem xs 0 hj] at ht
  exact ht ▸ List.getElem_mem hj

/-- A without-replacement sample has the requested size. -/
theorem length_sampleNoReplace (xs : List ℕ) (k : ℕ) (pick : ℕ → ℕ) :
    (sampleNoReplace xs k pick).length = k := by
  induction k generalizing xs with
  | zero => rfl
  | succ k ih => simp [sampleNoReplace, ih]

/-- When the pool holds at least `k` elements, every element of a
without-replacement sample of size `k` belongs to the pool. -/
theorem mem_sampleNoReplace (xs : List ℕ) (k : ℕ) (pick : ℕ → ℕ) (hk : k ≤ xs.length) :
    ∀ x ∈ sampleNoReplace xs k pick, x ∈ xs := by
  induction k generalizing xs with
  | zero =>
    intro x hx
    simp [sampleNoReplace] at hx
  | succ k ih =>
    intro x hx
    have hlen : 0 < xs.length := lt_of_lt_of_le (Nat.succ_pos k) hk
    have hj : pick k % xs.length < xs.length := Nat.mod_lt _ hlen
    have hk' : k ≤ (xs.eraseIdx (pick k % xs.length)).length := by
      rw [List.length_eraseIdx, if_pos hj]
      omega
    rcases List.mem_cons.mp hx with h | h
    · rw [h, List.getD_eq_getElem xs 0 hj]
      exact List.getElem_mem hj
    · exact (List.eraseIdx_sublist xs (pick k % xs.length)).subset (ih _ hk' x h)

/-- A without-replacement sample from a duplicate-free pool holding at
least `k` elements is itself duplicate-free. -/
theorem nodup_sampleNoReplace (xs : List ℕ) (k : ℕ) (pick : ℕ → ℕ)
    (hnd : xs.Nodup) (hk : k ≤ xs.length) :
    (sampleNoReplace xs k pick).Nodup := by
  induction k generalizing xs with
  | zero => simp [sampleNoReplace]
  | succ k ih =>
    have hlen : 0 < xs.length := lt_of_lt_of_le (Nat.succ_pos k) hk
    have hj : pick k % xs.length < xs.length := Nat.mod_lt _ hlen
    have hk' : k ≤ (xs.eraseIdx (pick k % xs.length)).length := by
      rw [List.length_eraseIdx, if_pos hj]
      omega
    rw [sampleNoReplace, List.nodup_cons]
    constructor
    · intro hmem
      have hsub : xs.getD (pick k % xs.length) 0 ∈ xs.eraseIdx (pick k % xs.length) :=
        mem_sampleNoReplace _ k pick hk' _ hmem
      rw [List.getD_eq_getElem xs 0 hj, List.mem_eraseIdx_iff_getElem] at hsub
      obtain ⟨m, hm, hmne, heq⟩ := hsub
      exact hmne (hnd.getElem_inj_iff.mp heq)
    · exact ih _ (hnd.eraseIdx _) hk'

/-- C5: for a user with non-empty training history, `__getitem__` returns
the user index together with exactly `n_pos` sampled items, every sampled
item lies in the user's history, and whenever the history holds at least
`n_pos` items the draw is without replacement, so the sampled items are
pairwise distinct. -/
theorem C5_user_sampling (lhs : List Row) (nPos : ℕ) (pick : ℕ → ℕ) (u : ℕ)
    (hne : userHistory lhs u ≠ []) :
    ∃ l, trainUserGetitem lhs nPos pick u = some (u, l) ∧
      l.length = nPos ∧
      (∀ x ∈ l, x ∈ userHistory lhs u) ∧
      (nPos ≤ (userHistory lhs u).length → l.Nodup) := by
  unfold trainUserGetitem npChoice
  have h0 : ¬ ((userHistory lhs u).length = 0 ∧ 0 < nPos) := by
    rintro ⟨h, _⟩
    exact hne (List.length_eq_zero.mp h)
  rw [if_neg h0]
  by_cases hrep : (userHistory lhs u).length < nPos
  · rw [if_pos (decide_eq_true hrep)]
    refine ⟨sampleReplace (userHistory lhs u) nPos pick, rfl,
      length_sampleReplace _ _ _, mem_sampleReplace _ _ _ hne, ?_⟩
    intro hge
    exact absurd hrep (not_lt.mpr hge)
  · rw [if_neg (by simpa using hrep), if_neg hrep]
    exact ⟨sampleNoReplace (userHistory lhs u) nPos pick, rfl,
      length_sampleNoReplace _ _ _,
      mem_sampleNoReplace _ _ _ (not_lt.mp hrep),
      fun _ => nodup_sampleNoReplace _ _ _ (List.nodup_dedup _) (not_lt.mp hrep)⟩

/-- C5 witness: sampling instantiated for a user whose history is the
single item 0. -/
theorem C5_user_sampling_witness :
    ∃ l, trainUserGetitem lhsW 2 (fun _ => 0) 0 = some (0, l) ∧
      l.length = 2 ∧
      (∀ x ∈ l, x ∈ userHistory lhsW 0) ∧
      (2 ≤ (userHistory lhsW 0).length → l.Nodup) :=
  C5_user_sampling lhsW 2 (fun _ => 0) 0 (by decide)

/-- C10: for a user with no training rows, the CSR row slice is empty and
`np.random.choice` over the empty candidate set raises even though
replacement is enabled, so `__getitem__` returns no array: sampling is not
total over the user index space. -/
theorem C10_empty_history (lhs : List Row) (nPos : ℕ) (pick : ℕ → ℕ) (u : ℕ)
    (hempty : userHistory lhs u = []) (hpos : 0 < nPos) :
    trainUserGetitem lhs nPos pick u = none := by
  unfold trainUserGetitem
  rw [hempty]
  unfold npChoice
  rw [if_pos ⟨rfl, hpos⟩]
  rfl

/-- C10 witness: a user index with empty history on a concrete table. -/
theorem C10_empty_history_witness :
    trainUserGetitem lhsW 10 (fun _ => 0) 5 = none :=
  C10_empty_history lhsW 10 (fun _ => 0) 5 (by decide) (by decide)

/-- The fields of a built `TrainRecDataset` read by
`get_mod_weights_settings`: the user count and, per grouping attribute, the
group cardinality and the user→group mapping. -/
structure TrainDatasetInfo where
  nUsers : ℕ
  nUserGroups : String → ℕ
  userToUserGroup : String → ℕ → ℕ

/-- The function `get_mod_weights_settings(delta_on, train_dataset, group_type)`. The
two leading asserts and the branch chain collapse to: "all" → one delta
set, all users mapped to 0; "groups" → the attribute's group cardinality
and mapping (failing when no attribute is given); "users" → one delta set
per user, identity mapping; anything else fails. Both assert failures
surface as the same `InvalidArgument` outcome. The user→delta-set tensor
is embedded as a function on user indices. -/
def get_mod_weights_settings (delta_on : String) (ds : TrainDatasetInfo)
    (group_type : Option String) : Except String (ℕ × (ℕ → ℕ)) :=
  if delta_on = "all" then .ok (1, fun _ => 0)
  else if delta_on = "groups" then
    match group_type with
    | some gt => .ok (ds.nUserGroups gt, ds.userToUserGroup gt)
    | none => .error "InvalidArgument"
  else if delta_on = "users" then .ok (ds.nUsers, fun u => u)
  else .error "InvalidArgument"

/-- C6: policy "all" yields one delta set with the all-zeros user mapping;
"users" yields `n_users` delta sets with the identity mapping; "groups"
with an attribute yields that attribute's group cardinality and its
user→group mapping unchanged; "groups" without an attribute and every
policy outside {all, groups, users} fail with `InvalidArgument`. -/
theorem C6_mod_weights_settings (ds : TrainDatasetInfo) (gt : String)
    (go : Option String) :
    get_mod_weights_settings "all" ds go = .ok (1, fun _ => 0) ∧
    get_mod_weights_settings "users" ds go = .ok (ds.nUsers, fun u => u) ∧
    get_mod_weights_settings "groups" ds (some gt)
      = .ok (ds.nUserGroups gt, ds.userToUserGroup gt) ∧
    get_mod_weights_settings "groups" ds none = .error "InvalidArgument" ∧
    (∀ s, s ≠ "all" → s ≠ "groups" → s ≠ "users" →
      get_mod_weights_settings s ds go = .error "InvalidArgument") := by
  refine ⟨rfl, rfl, rfl, rfl, ?_⟩
  intro s h1 h2 h3
  simp [get_mod_weights_settings, h1, h2, h3]

/-- A concrete dataset summary for instantiating the fairness helpers. -/
def dsW : TrainDatasetInfo := ⟨3, fun _ => 2, fun _ u => u % 2⟩

/-- C6 witness: an unknown policy value rejected on a concrete dataset. -/
theorem C6_mod_weights_settings_witness :
    get_mod_weights_settings "foo" dsW none = .error "InvalidArgument" :=
  (C6_mod_weights_settings dsW "gender" none).2.2.2.2 "foo"
    (by decide) (by decide) (by decide)

/-- Row sum `sampling_matrix[u].sum()`: the user's raw training
interaction count, duplicates included. -/
def userInteractionCount (lhs : List Row) (u : ℕ) : ℕ :=
  lhs.countP (fun p => decide (p.1 = u))

/-- The mass `train_mtx[group_mask].sum()` of `get_upsampling_values`: the summed
interaction counts of the users mapped to group `g`. -/
def groupMass (lhs : List Row) (u2g : ℕ → ℕ) (nUsers g : ℕ) : ℕ :=
  ∑ u ∈ Finset.range nUsers, if u2g u = g then userInteractionCount lhs u else 0

/-- The maximum `ce_weights.max()`: the largest group mass. -/
def maxGroupMass (lhs : List Row) (u2g : ℕ → ℕ) (nUsers nGroups : ℕ) : ℕ :=
  ((List.range nGroups).map (groupMass lhs u2g nUsers)).foldr max 0

/-- The function `get_upsampling_values`: each group is weighted
`max(sums) / sums[group]`, except that `ce_weights[-1]` is overwritten
with 0 for the "lfm2bdemobias" dataset with the "age" attribute. -/
def get_upsampling_values (lhs : List Row) (u2g : ℕ → ℕ) (nUsers nGroups : ℕ)
    (dataset_name attr : String) (g : ℕ) : ℚ :=
  if dataset_name = "lfm2bdemobias" ∧ attr = "age" ∧ g = nGroups - 1 then 0
  else (maxGroupMass lhs u2g nUsers nGroups : ℚ) / (groupMass lhs u2g nUsers g : ℚ)

/-- A `foldr max` over a list bounds every element from above. -/
theorem le_foldr_max {α : Type} [LinearOrder α] (l : List α) (b x : α) (hx : x ∈ l) :
    x ≤ l.foldr max b := by
  induction l with
  | nil => cases hx
  | cons a t ih =>
    rw [List.foldr_cons]
    rcases List.mem_cons.mp hx with h | h
    · rw [h]
      exact le_max_left _ _
    · exact le_trans (ih h) (le_max_right _ _)

/-- A `foldr max` over a non-empty list whose elements dominate the seed is
attained by some element. -/
theorem foldr_max_mem {α : Type} [LinearOrder α] (l : List α) (b : α)
    (hb : ∀ x ∈ l, b ≤ x) (hne : l ≠ []) : l.foldr max b ∈ l := by
  induction l with
  | nil => exact absurd rfl hne
  | cons a t ih =>
    by_cases ht : t = []
    · subst ht
      have : max a b = a := max_eq_left (hb a (List.mem_cons_self a []))
      simp [this]
    · rw [List.foldr_cons]
      rcases max_choice a (t.foldr max b) with h | h
      · rw [h]
        exact List.mem_cons_self a t
      · rw [h]
        exact List.mem_cons_of_mem a
          (ih (fun x hx => hb x (List.mem_cons_of_mem a hx)) ht)

/-- C7: wherever the outlier override does not apply, a group with nonzero
mass receives weight `max(sums)/sums[g]`, so a group attaining the maximal
mass receives weight exactly 1; such a group exists whenever there are
groups; and for the "lfm2bdemobias" dataset with the "age" attribute the
last group's weight is 0 regardless of its mass. -/
theorem C7_upsampling_values (lhs : List Row) (u2g : ℕ → ℕ) (U G : ℕ)
    (dn a : String) :
    (∀ g, ¬ (dn = "lfm2bdemobias" ∧ a = "age" ∧ g = G - 1) →
      groupMass lhs u2g U g ≠ 0 →
      get_upsampling_values lhs u2g U G dn a g
        = (maxGroupMass lhs u2g U G : ℚ) / (groupMass lhs u2g U g : ℚ) ∧
      (groupMass lhs u2g U g = maxGroupMass lhs u2g U G →
        get_upsampling_values lhs u2g U G dn a g = 1)) ∧
    (0 < G → ∃ g < G, groupMass lhs u2g U g = maxGroupMass lhs u2g U G) ∧
    (dn = "lfm2bdemobias" → a = "age" →
      get_upsampling_values lhs u2g U G dn a (G - 1) = 0) := by
  refine ⟨?_, ?_, ?_⟩
  · intro g hno hmass
    have heq : get_upsampling_values lhs u2g U G dn a g
        = (maxGroupMass lhs u2g U G : ℚ) / (groupMass lhs u2g U g : ℚ) := by
      unfold get_upsampling_values
      rw [if_neg hno]
    refine ⟨heq, ?_⟩
    intro hmax
    rw [heq, ← hmax]
    exact div_self (Nat.cast_ne_zero.mpr hmass)
  · intro hG
    have hne : (List.range G).map (groupMass lhs u2g U) ≠ [] := by
      rw [← List.length_pos, List.length_map, List.length_range]
      exact hG
    have hmem : maxGroupMass lhs u2g U G ∈ (List.range G).map (groupMass lhs u2g U) :=
      foldr_max_mem _ 0 (fun x _ => Nat.zero_le x) hne
    obtain ⟨g, hg, hgeq⟩ := List.mem_map.mp hmem
    exact ⟨g, List.mem_range.mp hg, hgeq⟩
  · intro hdn ha
    unfold get_upsampling_values
    rw [if_pos ⟨hdn, ha, rfl⟩]

/-- C7 witness: the weight laws instantiated on a concrete table of two
groups where group 0 has all the mass. -/
theorem C7_upsampling_values_witness :
    get_upsampling_values lhsDup (fun u => u % 2) 2 2 "ml1m" "gender" 0
      = (maxGroupMass lhsDup (fun u => u % 2) 2 2 : ℚ)
        / (groupMass lhsDup (fun u => u % 2) 2 0 : ℚ) :=
  ((C7_upsampling_values lhsDup (fun u => u % 2) 2 2 "ml1m" "gender").1 0
    (by decide) (by decide)).1

/-- Per-user update counts `train_mtx.sum(1).A1` over the `n_users` rows,
as exact rationals. -/
def updatesList (lhs : List Row) (U : ℕ) : List ℚ :=
  (List.range U).map (fun u => (userInteractionCount lhs u : ℚ))

/-- The maximum `n_user_updates.max()`. -/
def maxUpdates (lhs : List Row) (U : ℕ) : ℚ :=
  (updatesList lhs U).foldr max 0

/-- The minimum `n_user_updates.min()`. -/
def minUpdates (lhs : List Row) (U : ℕ) : ℚ :=
  match updatesList lhs U with
  | [] => 0
  | x :: xs => xs.foldr min x

/-- The mean `n_user_updates.mean()`. -/
def meanUpdates (lhs : List Row) (U : ℕ) : ℚ :=
  (∑ u ∈ Finset.range U, (userInteractionCount lhs u : ℚ)) / (U : ℚ)

/-- The function `get_users_gradient_scaling(train_dataset, method)`: the all-ones
vector for "none", otherwise the per-user counts divided into their mean,
max or min; any other method fails the opening assert. -/
def get_users_gradient_scaling (lhs : List Row) (U : ℕ) (method : String) :
    Except String (ℕ → ℚ) :=
  if method = "none" then .ok (fun _ => 1)
  else if method = "mean" then
    .ok (fun u => meanUpdates lhs U / (userInteractionCount lhs u : ℚ))
  else if method = "max" then
    .ok (fun u => maxUpdates lhs U / (userInteractionCount lhs u : ℚ))
  else if method = "min" then
    .ok (fun u => minUpdates lhs U / (userInteractionCount lhs u : ℚ))
  else .error "InvalidArgument"

/-- A `foldr min` seeded with the head is an element of the full list. -/
theorem foldr_min_mem {α : Type} [LinearOrder α] (x : α) (xs : List α) :
    xs.foldr min x ∈ x :: xs := by
  induction xs generalizing x with
  | nil => simp
  | cons a t ih =>
    rw [List.foldr_cons]
    rcases min_choice a (t.foldr min x) with h | h
    · rw [h]
      exact List.mem_cons_of_mem x (List.mem_cons_self a t)
    · rw [h]
      rcases List.mem_cons.mp (ih x) with h2 | h2
      · rw [h2]
        exact List.mem_cons_self x (a :: t)
      · exact List.mem_cons_of_mem x (List.mem_cons_of_mem a h2)

/-- A `foldr min` seeded with the head bounds every element of the full
list from below. -/
theorem foldr_min_le {α : Type} [LinearOrder α] (x : α) (xs : List α) :
    ∀ y ∈ x :: xs, xs.foldr min x ≤ y := by
  induction xs generalizing x with
  | nil =>
    intro y hy
    rcases List.mem_cons.mp hy with h | h
    · subst h
      exact le_rfl
    · cases h
  | cons a t ih =>
    intro y hy
    rw [List.foldr_cons]
    rcases List.mem_cons.mp hy with h | h
    · subst h
      exact le_trans (min_le_right _ _) (ih y y (List.mem_cons_self y t))
    · rcases List.mem_cons.mp h with h2 | h2
      · subst h2
        exact min_le_left _ _
      · exact le_trans (min_le_right _ _) (ih x y (List.mem_cons_of_mem x h2))

/-- C8: with at least one user, each having at least one training
interaction: "none" returns the all-ones vector; "mean" returns
`mean(counts)/counts[u]`; "max" scales every user to at least 1 and users
of maximal interaction count to exactly 1; "min" scales every user to at
most 1 and users of minimal count to exactly 1; every other policy fails
with `InvalidArgument`. -/
theorem C8_gradient_scaling (lhs : List Row) (U : ℕ)
    (hU : 0 < U) (hpos : ∀ u < U, 0 < userInteractionCount lhs u) :
    get_users_gradient_scaling lhs U "none" = .ok (fun _ => 1) ∧
    get_users_gradient_scaling lhs U "mean"
      = .ok (fun u => meanUpdates lhs U / (userInteractionCount lhs u : ℚ)) ∧
    (∃ f, get_users_gradient_scaling lhs U "max" = .ok f ∧
      (∀ u < U, 1 ≤ f u) ∧
      (∀ u < U, (∀ v < U, userInteractionCount lhs v ≤ userInteractionCount lhs u) →
        f u = 1)) ∧
    (∃ f, get_users_gradient_scaling lhs U "min" = .ok f ∧
      (∀ u < U, f u ≤ 1) ∧
      (∀ u < U, (∀ v < U, userInteractionCount lhs u ≤ userInteractionCount lhs v) →
        f u = 1)) ∧
    (∀ m, m ≠ "none" → m ≠ "mean" → m ≠ "max" → m ≠ "min" →
      get_users_gradient_scaling lhs U m = .error "InvalidArgument") := by
  have hcast : ∀ u < U, (0 : ℚ) < (userInteractionCount lhs u : ℚ) := by
    intro u hu
    exact_mod_cast hpos u hu
  have hmeml : ∀ u < U, (userInteractionCount lhs u : ℚ) ∈ updatesList lhs U := by
    intro u hu
    exact List.mem_map.mpr ⟨u, List.mem_range.mpr hu, rfl⟩
  have hofl : ∀ y ∈ updatesList lhs U, ∃ v < U, (userInteractionCount lhs v : ℚ) = y := by
    intro y hy
    obtain ⟨v, hv, hveq⟩ := List.mem_map.mp hy
    exact ⟨v, List.mem_range.mp hv, hveq⟩
  refine ⟨rfl, rfl, ?_, ?_, ?_⟩
  · refine ⟨fun u => maxUpdates lhs U / (userInteractionCount lhs u : ℚ), rfl, ?_, ?_⟩
    · intro u hu
      exact (one_le_div (hcast u hu)).mpr (le_foldr_max _ 0 _ (hmeml u hu))
    · intro u hu hdom
      have hne : updatesList lhs U ≠ [] := by
        rw [← List.length_pos, updatesList, List.length_map, List.length_range]
        exact hU
      have hattain : maxUpdates lhs U ∈ updatesList lhs U :=
        foldr_max_mem _ 0 (fun y hy => by
          obtain ⟨v, _, hveq⟩ := hofl y hy
          rw [← hveq]
          exact Nat.cast_nonneg _) hne
      obtain ⟨v, hv, hveq⟩ := hofl _ hattain
      have h1 : maxUpdates lhs U ≤ (userInteractionCount lhs u : ℚ) := by
        rw [← hveq]
        exact_mod_cast hdom v hv
      have h2 : (userInteractionCount lhs u : ℚ) ≤ maxUpdates lhs U :=
        le_foldr_max _ 0 _ (hmeml u hu)
      show maxUpdates lhs U / (userInteractionCount lhs u : ℚ) = 1
      rw [(le_antisymm h2 h1).symm]
      exact div_self (ne_of_gt (hcast u hu))
  · obtain ⟨x, xs, hxl⟩ : ∃ x xs, updatesList lhs U = x :: xs := by
      cases hl : updatesList lhs U with
      | nil =>
        exfalso
        have hlen := congrArg List.length hl
        rw [updatesList, List.length_map, List.length_range] at hlen
        simp at hlen
        omega
      | cons x xs => exact ⟨x, xs, rfl⟩
    have hminv : minUpdates lhs U = xs.foldr min x := by
      unfold minUpdates
      rw [hxl]
    refine ⟨fun u => minUpdates lhs U / (userInteractionCount lhs u : ℚ), rfl, ?_, ?_⟩
    · intro u hu
      refine (div_le_one (hcast u hu)).mpr ?_
      rw [hminv]
      exact foldr_min_le x xs _ (hxl ▸ hmeml u hu)
    · intro u hu hdom
      have hattain : minUpdates lhs U ∈ updatesList lhs U := by
        rw [hminv, hxl]
        exact foldr_min_mem x xs
      obtain ⟨v, hv, hveq⟩ := hofl _ hattain
      have h1 : (userInteractionCount lhs u : ℚ) ≤ minUpdates lhs U := by
        rw [← hveq]
        exact_mod_cast hdom v hv
      have h2 : minUpdates lhs U ≤ (userInteractionCount lhs u : ℚ) := by
        rw [hminv]
        exact foldr_min_le x xs _ (hxl ▸ hmeml u hu)
      show minUpdates lhs U / (userInteractionCount lhs u : ℚ) = 1
      rw [le_antisymm h2 h1]
      exact div_self (ne_of_gt (hcast u hu))
  · intro m h1 h2 h3 h4
    simp [get_users_gradient_scaling, h1, h2, h3, h4]

/-- C8 witness: the scaling laws instantiated on a concrete table where
both users have one interaction each. -/
theorem C8_gradient_scaling_witness :
    get_users_gradient_scaling lhsW 2 "none" = .ok (fun _ => 1) :=
  (C8_gradient_scaling lhsW 2 (by decide) (by decide)).1

end ProtoFair
